import Mathlib

/-!
Verification development for `csv2xlsx.py`, a utility that combines a
directory of CSV files into one Excel workbook, one worksheet per CSV file.

Modelling conventions (shallow embedding):
* Python strings are `List Char` (called `PyStr` below); Python `set[str]`
  is `Finset PyStr`; Python exceptions are `Except`.
* Routines from the Python standard library that the script merely calls
  but whose code is not part of this repository (UTF-8 decoding with
  `errors="ignore"`, `csv.Sniffer().sniff`, `os.listdir` / `os.walk`, the
  row production of `csv.reader`) are passed in as explicit function
  arguments; everything written in `csv2xlsx.py` itself is translated
  directly from the source.
* `os.path` functions are modelled with POSIX semantics (separator `/`).
-/

/-- Python strings, modelled as lists of characters (code points). -/
abbrev PyStr := List Char

/-- `ILLEGAL_SHEET_CHARS` from `csv2xlsx.py` line 7: the characters
`[ ] : * ? /` together with backslash (code 92) and apostrophe (code 39). -/
def ILLEGAL_SHEET_CHARS : List Char := "[]:*?/".data ++ [Char.ofNat 92, Char.ofNat 39]

/-- `MAX_SHEET_LEN` from `csv2xlsx.py` line 8: Excel's 31-character sheet-title limit. -/
def MAX_SHEET_LEN : Nat := 31

/-- Python `str.strip()` whitespace test, modelled on the ASCII whitespace
characters (space, tab, newline, carriage return, vertical tab, form feed).
Python additionally strips Unicode whitespace; no claim depends on that. -/
def pyIsSpace (c : Char) : Bool :=
  c == ' ' || c == '\t' || c == '\n' || c == '\r' || c == Char.ofNat 11 || c == Char.ofNat 12

/-- Python `str.strip()`: drop leading and trailing whitespace. -/
def pyStrip (s : PyStr) : PyStr :=
  ((s.dropWhile pyIsSpace).reverse.dropWhile pyIsSpace).reverse

/-- Python `os.path.basename` (POSIX): the part of the path after the last `/`. -/
def pyBasename (p : PyStr) : PyStr :=
  (p.reverse.takeWhile (fun c => c != '/')).reverse

/-- Python `os.path.splitext(p)[0]` (POSIX `posixpath.splitext`): remove the
extension, i.e. everything from the last `.` of the final path segment on,
but only when some character of the segment strictly before that dot is not
itself a dot (CPython skips the leading dots of the segment, so dotfile-style
names such as `.csv` are returned whole). -/
def pySplitextRoot (p : PyStr) : PyStr :=
  let b := pyBasename p
  let dir := p.take (p.length - b.length)
  let ext := b.reverse.takeWhile (fun c => c != '.')
  if ext.length = b.length then p
  else
    let stem := b.take (b.length - ext.length - 1)
    if stem.any (fun c => c != '.') then dir ++ stem else p

/-- Python slicing `s[:n]` where `n` may be negative (a negative bound counts
from the end of the string; an out-of-range bound clamps). -/
def pySliceTo (s : PyStr) (n : Int) : PyStr :=
  if n < 0 then s.take ((s.length : Int) + n).toNat else s.take n.toNat

/-- Decimal digit string of a natural number, modelling Python `str(counter)`
for the positive loop counter of `sanitize_sheet_name`. -/
def natDigits (n : Nat) : List Char :=
  if _h : n < 10 then [Nat.digitChar n]
  else natDigits (n / 10) ++ [Nat.digitChar (n % 10)]
termination_by n
decreasing_by
  exact Nat.div_lt_self (by omega) (by omega)

/-- The suffix `f"_{counter}"` appended by the uniqueness loop. -/
def suffixOf (k : Nat) : PyStr := '_' :: natDigits k

/-- The candidate tested at loop step `k` of `sanitize_sheet_name`'s
uniqueness loop: step `0` is the bare (truncated) base, step `k ≥ 1` is
`base[:MAX_SHEET_LEN - len(suffix)] + suffix` with `suffix = "_" + str(k)`
(`csv2xlsx.py` lines 20-26). -/
def candidateAt (base : PyStr) (k : Nat) : PyStr :=
  if k = 0 then base
  else pySliceTo base ((MAX_SHEET_LEN : Int) - ((suffixOf k).length : Int)) ++ suffixOf k

/-- The extension-stripping, character-replacement, strip-or-`"Sheet"` and
truncation steps of `sanitize_sheet_name` (`csv2xlsx.py` lines 12-17),
producing the `base` that the uniqueness loop starts from. -/
def sanitizeBase (name : PyStr) : PyStr :=
  let n1 := pySplitextRoot name
  let n2 := n1.map (fun ch => if ch ∈ ILLEGAL_SHEET_CHARS then '_' else ch)
  let n3 := if pyStrip n2 = [] then "Sheet".data else pyStrip n2
  n3.take MAX_SHEET_LEN

/-- Value of a decimal digit character. -/
def digitVal (c : Char) : Nat := c.toNat - 48

/-- Read a digit string back as a number (left fold, most significant first). -/
def natFromDigits (l : List Char) : Nat :=
  l.foldl (fun a c => 10 * a + digitVal c) 0

/-- The loop step at which the uniqueness loop of `sanitize_sheet_name`
stops: the least `k` whose candidate is not in the used-names set.  The
inline proof shows such a step exists (a candidate eventually gets longer
than everything in the finite used-names set), which is exactly termination
of the source's `while` loop. -/
def freshStep (base : PyStr) (used : Finset PyStr) : Nat :=
  Nat.find (show ∃ k, candidateAt base k ∉ used by
    refine ⟨10 ^ (used.sup List.length + MAX_SHEET_LEN + 1), fun hmem => ?_⟩
    have hlen : ∀ d : Nat, (natDigits (10 ^ d)).length = d + 1 := by
      intro d
      induction d with
      | zero =>
        rw [natDigits]
        norm_num
      | succ d ih =>
        rw [natDigits]
        have h10 : ¬ 10 ^ (d + 1) < 10 := by
          have hp : (10 : Nat) ^ 1 ≤ 10 ^ (d + 1) := Nat.pow_le_pow_right (by omega) (by omega)
          simp only [pow_one] at hp
          omega
        have hdiv : 10 ^ (d + 1) / 10 = 10 ^ d := by
          rw [pow_succ]
          exact Nat.mul_div_cancel _ (by omega)
        simp [h10, hdiv, ih]
    have hk0 : ¬ 10 ^ (used.sup List.length + MAX_SHEET_LEN + 1) = 0 := by positivity
    have hbig : used.sup List.length <
        (candidateAt base (10 ^ (used.sup List.length + MAX_SHEET_LEN + 1))).length := by
      rw [candidateAt, if_neg hk0, List.length_append]
      simp only [suffixOf, List.length_cons]
      rw [hlen]
      omega
    have hle : List.length (candidateAt base (10 ^ (used.sup List.length + MAX_SHEET_LEN + 1)))
        ≤ used.sup List.length := Finset.le_sup hmem
    omega)

/-- `sanitize_sheet_name` from `csv2xlsx.py` lines 10-29: strip the
extension, replace illegal characters by `_`, strip whitespace (falling back
to `"Sheet"`), truncate to 31 characters, then run the uniqueness loop
(`while candidate in used_names`) and record the winning candidate in the
used-names set before returning it.  The `while` loop is rendered as the
least loop step whose candidate is unused (`freshStep`). -/
def sanitize_sheet_name (name : PyStr) (used : Finset PyStr) : PyStr × Finset PyStr :=
  let base := sanitizeBase name
  let c := candidateAt base (freshStep base used)
  (c, insert c used)

/-- A CSV row: a list of string fields. -/
abbrev Row := List PyStr

/-- One worksheet of the output workbook: a title plus its appended rows. -/
structure Sheet where
  title : PyStr
  rows : List Row
deriving DecidableEq

/-- A CSV dialect, reduced to the only field `csv2xlsx.py` ever sets or
reads: the delimiter (`SimpleDialect` overrides exactly this field of
`csv.excel`). -/
structure Dialect where
  delimiter : PyStr
deriving DecidableEq

/-- `csv.excel`: the default comma dialect. -/
def csvExcel : Dialect := ⟨[',']⟩

/-- `sniff_dialect` from `csv2xlsx.py` lines 31-43.  `sample` is the raw
byte sample; `provided` the optional delimiter override; `decode` stands for
`bytes.decode("utf-8", errors="ignore")` (total: this mode never raises) and
`sniffer` for `csv.Sniffer().sniff(text, delimiters=...)`, which may raise
(`Except.error`).  Python's truthiness test `if provided_delimiter:` treats
both `None` and the empty string as absent.  The `try/except Exception`
around sniffing turns every sniffing failure into the `csv.excel` fallback,
so the function as a whole always returns a dialect. -/
def sniff_dialect (sample : List Nat) (provided : Option PyStr)
    (decode : List Nat → PyStr) (sniffer : PyStr → Except PyStr Dialect) :
    Except PyStr Dialect :=
  let fallback : Except PyStr Dialect :=
    match sniffer (decode sample) with
    | Except.ok d => Except.ok d
    | Except.error _ => Except.ok csvExcel
  match provided with
  | some d => if d.isEmpty then fallback else Except.ok { delimiter := d }
  | none => fallback

/-- ASCII case folding, modelling Python `str.lower` (which additionally
folds non-ASCII letters; no claim depends on that). -/
def pyToLower (c : Char) : Char :=
  if 65 ≤ c.toNat ∧ c.toNat ≤ 90 then Char.ofNat (c.toNat + 32) else c

/-- Python string comparison `s <= t`: lexicographic on code points. -/
def pyStrLe : PyStr → PyStr → Bool
  | [], _ => true
  | _ :: _, [] => false
  | c :: s, d :: t => if c.toNat = d.toNat then pyStrLe s t else decide (c.toNat < d.toNat)

/-- The filter of `find_csv_files`: `fn.lower().endswith(".csv")`. -/
def isCsvName (fn : PyStr) : Bool :=
  List.isSuffixOf ".csv".data (fn.map pyToLower)

/-- Python `os.path.join(a, b)` (POSIX) for the two-argument uses in
`find_csv_files`. -/
def pyJoin (a b : PyStr) : PyStr :=
  if b.head? = some '/' then b
  else if a = [] ∨ a.getLast? = some '/' then a ++ b
  else a ++ '/' :: b

/-- The sort key of `find_csv_files`: `os.path.basename(p).lower()`. -/
def fileKey (p : PyStr) : PyStr := (pyBasename p).map pyToLower

/-- The ordering `sorted(files, key=...)` sorts by: keys compared
lexicographically, ascending. -/
def fileOrder (p q : PyStr) : Prop := pyStrLe (fileKey p) (fileKey q) = true

instance : DecidableRel fileOrder := fun p q => by
  unfold fileOrder
  infer_instance

instance : IsTotal PyStr fileOrder := by
  constructor
  intro a b
  show pyStrLe (fileKey a) (fileKey b) = true ∨ pyStrLe (fileKey b) (fileKey a) = true
  generalize fileKey a = x
  generalize fileKey b = y
  induction x generalizing y with
  | nil => left; rfl
  | cons c s ih =>
    cases y with
    | nil => right; rfl
    | cons d t =>
      simp only [pyStrLe]
      by_cases h : c.toNat = d.toNat
      · rw [if_pos h, if_pos h.symm]
        exact ih t
      · rw [if_neg h, if_neg (fun hh => h hh.symm)]
        rcases Nat.lt_or_ge c.toNat d.toNat with h1 | h1
        · left; exact decide_eq_true h1
        · right; exact decide_eq_true (by omega)

instance : IsTrans PyStr fileOrder := by
  constructor
  intro a b c hab hbc
  show pyStrLe (fileKey a) (fileKey c) = true
  replace hab : pyStrLe (fileKey a) (fileKey b) = true := hab
  replace hbc : pyStrLe (fileKey b) (fileKey c) = true := hbc
  revert hab hbc
  generalize fileKey a = x
  generalize fileKey b = y
  generalize fileKey c = z
  intro hab hbc
  induction x generalizing y z with
  | nil => rfl
  | cons cx s ih =>
    cases y with
    | nil =>
      simp only [pyStrLe] at hab
      exact absurd hab Bool.false_ne_true
    | cons cy t =>
      cases z with
      | nil =>
        simp only [pyStrLe] at hbc
        exact absurd hbc Bool.false_ne_true
      | cons cz u =>
        simp only [pyStrLe] at hab hbc ⊢
        by_cases h1 : cx.toNat = cy.toNat
        · rw [if_pos h1] at hab
          by_cases h2 : cy.toNat = cz.toNat
          · rw [if_pos h2] at hbc
            rw [if_pos (h1.trans h2)]
            exact ih t u hab hbc
          · rw [if_neg h2] at hbc
            rw [if_neg (fun hh => h2 (by omega))]
            simp only [decide_eq_true_eq] at hbc ⊢
            omega
        · rw [if_neg h1] at hab
          simp only [decide_eq_true_eq] at hab
          by_cases h2 : cy.toNat = cz.toNat
          · rw [if_neg (fun hh => h1 (by omega))]
            simp only [decide_eq_true_eq]
            omega
          · rw [if_neg h2] at hbc
            simp only [decide_eq_true_eq] at hbc
            rw [if_neg (by omega)]
            simp only [decide_eq_true_eq]
            omega

/-- `find_csv_files` from `csv2xlsx.py` lines 56-68.  `listing` stands for
`os.listdir(input_dir)` and `walk` for the `(root, filenames)` pairs that
`os.walk(input_dir)` yields (real directory entries contain no `/`).  The
collected matches are sorted with `sorted(files, key=...)`; Python's sort is
the unique stable sort for the key order, so the stable `insertionSort`
models it exactly. -/
def find_csv_files (input_dir : PyStr) (listing : List PyStr)
    (walk : List (PyStr × List PyStr)) (recursive : Bool) : List PyStr :=
  let files := if recursive
    then walk.flatMap (fun rf => (rf.2.filter isCsvName).map (pyJoin rf.1))
    else (listing.filter isCsvName).map (pyJoin input_dir)
  List.insertionSort fileOrder files

/-- The per-file loop of `combine_csvs_to_excel` (`csv2xlsx.py` lines
78-90).  `readRows p` stands for draining the generator
`read_csv_rows(p, ...)`: the rows it yields before finishing or raising,
plus `some err` if it raised (opening the file, decoding the sample,
parsing and row production all happen inside it).  The worksheet is created
(with its sanitized title) before the `try:` block; on error the rows
appended so far remain and the loop continues with the next file, the
exception being swallowed by `except Exception`. -/
def buildSheets (readRows : PyStr → List Row × Option PyStr) :
    List PyStr → Finset PyStr → List Sheet
  | [], _ => []
  | p :: ps, used =>
    let s := sanitize_sheet_name (pyBasename p) used
    let r := readRows p
    { title := s.1, rows := r.1 } :: buildSheets readRows ps s.2

/-- The used-names set after a prefix of the per-file loop. -/
def sanitizeFoldUsed (ps : List PyStr) (used : Finset PyStr) : Finset PyStr :=
  ps.foldl (fun u p => (sanitize_sheet_name (pyBasename p) u).2) used

/-- `combine_csvs_to_excel` from `csv2xlsx.py` lines 70-97: discover the
files, fail with `FileNotFoundError` if there are none, otherwise build one
sheet per file.  Progress printing and the final `wb.save` (whose own
failure is outside every claim) are not modelled; the returned sheet list is
the workbook content handed to `wb.save`. -/
def combine_csvs_to_excel (input_dir : PyStr) (listing : List PyStr)
    (walk : List (PyStr × List PyStr)) (recursive : Bool)
    (readRows : PyStr → List Row × Option PyStr) : Except PyStr (List Sheet) :=
  let csv_files := find_csv_files input_dir listing walk recursive
  if csv_files = [] then Except.error ("No CSV files found in: ".data ++ input_dir)
  else Except.ok (buildSheets readRows csv_files ∅)

/-- Stand-in for the stdlib UTF-8 decoder used in counterexamples/witnesses. -/
def emptyDecode : List Nat → PyStr := fun _ => []

/-- Stand-in sniffing oracle that fails, mirroring `csv.Sniffer().sniff` on
an empty or degenerate sample (it raises `could not determine delimiter`). -/
def failSniffer : PyStr → Except PyStr Dialect := fun _ =>
  Except.error "Could not determine delimiter".data

/-- Stand-in sniffing oracle that infers a semicolon dialect. -/
def semiSniffer : PyStr → Except PyStr Dialect := fun _ => Except.ok ⟨[';']⟩

/-- A 31-character name used to exhibit the oversized-title corner of the
uniqueness loop. -/
def aaaName : PyStr := List.replicate 31 'a'

/-- A second 31-character name (distinct input for a distinct claim). -/
def bbbName : PyStr := List.replicate 31 'b'

/-- An (astronomically large but well-defined) used-names set holding every
loop candidate of `base` with counter below `10 ^ 30` — i.e. every candidate
whose suffix `_counter` still fits inside 31 characters. -/
def hugeUsed (base : PyStr) : Finset PyStr :=
  (Finset.range (10 ^ 30)).image (candidateAt base)

/-! ### Digit strings and candidate injectivity -/

theorem MAX_SHEET_LEN_eq : MAX_SHEET_LEN = 31 := rfl

/-- Unfolding equation for `natDigits`. -/
theorem natDigits_eq (n : Nat) :
    natDigits n = if n < 10 then [Nat.digitChar n]
      else natDigits (n / 10) ++ [Nat.digitChar (n % 10)] := by
  rw [natDigits]
  by_cases h : n < 10 <;> simp [h]

theorem digitVal_digitChar (d : Nat) (h : d < 10) : digitVal (Nat.digitChar d) = d := by
  interval_cases d <;> decide

theorem natFromDigits_append_digit (l : List Char) (c : Char) :
    natFromDigits (l ++ [c]) = 10 * natFromDigits l + digitVal c := by
  simp [natFromDigits, List.foldl_append]

theorem natFromDigits_natDigits (n : Nat) : natFromDigits (natDigits n) = n := by
  induction n using Nat.strong_induction_on with
  | _ n ih =>
    rw [natDigits_eq]
    by_cases h : n < 10
    · simp only [if_pos h]
      show 10 * 0 + digitVal (Nat.digitChar n) = n
      rw [digitVal_digitChar n h]; omega
    · simp only [if_neg h]
      rw [natFromDigits_append_digit, ih (n / 10) (Nat.div_lt_self (by omega) (by omega)),
        digitVal_digitChar (n % 10) (Nat.mod_lt _ (by omega))]
      omega

theorem natDigits_inj {m n : Nat} (h : natDigits m = natDigits n) : m = n := by
  have hm := natFromDigits_natDigits m
  rw [h, natFromDigits_natDigits] at hm
  omega

theorem mem_natDigits {n : Nat} {c : Char} (hc : c ∈ natDigits n) : c ∈ "0123456789".data := by
  induction n using Nat.strong_induction_on with
  | _ n ih =>
    rw [natDigits_eq] at hc
    by_cases h : n < 10
    · rw [if_pos h] at hc
      simp only [List.mem_singleton] at hc
      subst hc
      interval_cases n <;> decide
    · rw [if_neg h] at hc
      rcases List.mem_append.mp hc with h1 | h1
      · exact ih (n / 10) (Nat.div_lt_self (by omega) (by omega)) h1
      · simp only [List.mem_singleton] at h1
        subst h1
        have hlt : n % 10 < 10 := Nat.mod_lt _ (by omega)
        generalize n % 10 = m at hlt ⊢
        interval_cases m <;> decide

theorem natDigits_ne_underscore {n : Nat} {c : Char} (hc : c ∈ natDigits n) :
    (c != '_') = true := by
  have h := mem_natDigits hc
  fin_cases h <;> decide

/-- `List.takeWhile` passes over an all-true prefix. -/
theorem takeWhile_append_of_all {α : Type} (p : α → Bool) (xs ys : List α)
    (h : ∀ x ∈ xs, p x = true) :
    List.takeWhile p (xs ++ ys) = xs ++ List.takeWhile p ys := by
  induction xs with
  | nil => simp
  | cons a l ih =>
    simp only [List.cons_append, List.takeWhile_cons, h a (List.mem_cons_self a l), ih
      (fun x hx => h x (List.mem_cons_of_mem a hx))]
    simp

/-- `List.takeWhile` cut off exactly at a failing element after an all-true prefix. -/
theorem takeWhile_append_cons {α : Type} (p : α → Bool) (xs : List α) (y : α) (ys : List α)
    (h : ∀ x ∈ xs, p x = true) (hy : p y = false) :
    List.takeWhile p (xs ++ y :: ys) = xs := by
  rw [takeWhile_append_of_all p xs (y :: ys) h]
  simp [List.takeWhile_cons, hy]

/-- The digit block of a suffixed candidate is recoverable: everything after
the last underscore. -/
theorem candidateAt_digits (base : PyStr) {k : Nat} (hk : k ≠ 0) :
    (candidateAt base k).reverse.takeWhile (fun c => c != '_') = (natDigits k).reverse := by
  simp only [candidateAt, if_neg hk, suffixOf, List.reverse_append, List.reverse_cons]
  rw [List.append_assoc]
  exact takeWhile_append_cons _ _ _ _
    (fun x hx => natDigits_ne_underscore (List.mem_reverse.mp hx)) (by decide)

theorem candidateAt_inj (base : PyStr) {k1 k2 : Nat} (h1 : k1 ≠ 0) (h2 : k2 ≠ 0)
    (h : candidateAt base k1 = candidateAt base k2) : k1 = k2 := by
  have hd := congrArg (fun l => List.takeWhile (fun c => c != '_') l.reverse) h
  simp only [candidateAt_digits base h1, candidateAt_digits base h2] at hd
  exact natDigits_inj (List.reverse_injective hd)

/-- The uniqueness loop of `sanitize_sheet_name` terminates: some candidate
is outside any given finite used-names set. -/
theorem exists_candidate_not_mem (base : PyStr) (used : Finset PyStr) :
    ∃ k, candidateAt base k ∉ used := by
  by_contra hall
  push_neg at hall
  have hinj : Function.Injective (fun k : Nat => candidateAt base (k + 1)) := by
    intro a b hab
    have := candidateAt_inj base (Nat.succ_ne_zero a) (Nat.succ_ne_zero b) hab
    omega
  have hsub : Finset.image (fun k : Nat => candidateAt base (k + 1))
      (Finset.range (used.card + 1)) ⊆ used := by
    intro x hx
    rcases Finset.mem_image.mp hx with ⟨k, _, rfl⟩
    exact hall _
  have hcard := Finset.card_le_card hsub
  rw [Finset.card_image_of_injective _ hinj, Finset.card_range] at hcard
  omega

/-! ### Basic facts about `sanitize_sheet_name` -/

/-- Loop step `0` tests the bare base. -/
theorem candidateAt_zero (base : PyStr) : candidateAt base 0 = base := by
  simp [candidateAt]

/-- The candidate at the stopping step is unused. -/
theorem freshStep_not_mem (base : PyStr) (used : Finset PyStr) :
    candidateAt base (freshStep base used) ∉ used := by
  unfold freshStep
  exact Nat.find_spec (p := fun k => candidateAt base k ∉ used) _

/-- Every candidate tested before the stopping step was in the set. -/
theorem freshStep_min (base : PyStr) (used : Finset PyStr) {j : Nat}
    (hj : j < freshStep base used) : candidateAt base j ∈ used := by
  unfold freshStep at hj
  exact not_not.mp (Nat.find_min (p := fun k => candidateAt base k ∉ used) _ hj)

/-- The stopping step is determined by the first-unused property. -/
theorem freshStep_eq (base : PyStr) (used : Finset PyStr) (k : Nat)
    (h1 : candidateAt base k ∉ used)
    (h2 : ∀ j < k, candidateAt base j ∈ used) : freshStep base used = k := by
  unfold freshStep
  exact (Nat.find_eq_iff (p := fun k => candidateAt base k ∉ used) _).mpr
    ⟨h1, fun m hm => not_not_intro (h2 m hm)⟩

attribute [irreducible] freshStep

/-- The returned title is the candidate at the stopping step. -/
theorem sanitize_fst_eq (name : PyStr) (used : Finset PyStr) :
    (sanitize_sheet_name name used).1 =
      candidateAt (sanitizeBase name) (freshStep (sanitizeBase name) used) := by
  simp only [sanitize_sheet_name]

/-- Characterization of the candidate `sanitize_sheet_name` returns. -/
theorem sanitize_eq_of_spec (name : PyStr) (used : Finset PyStr) (k : Nat)
    (h1 : candidateAt (sanitizeBase name) k ∉ used)
    (h2 : ∀ j < k, candidateAt (sanitizeBase name) j ∈ used) :
    (sanitize_sheet_name name used).1 = candidateAt (sanitizeBase name) k := by
  rw [sanitize_fst_eq, freshStep_eq (sanitizeBase name) used k h1 h2]

theorem sanitize_fst_not_mem (name : PyStr) (used : Finset PyStr) :
    (sanitize_sheet_name name used).1 ∉ used := by
  rw [sanitize_fst_eq]
  exact freshStep_not_mem (sanitizeBase name) used

theorem sanitize_snd_eq (name : PyStr) (used : Finset PyStr) :
    (sanitize_sheet_name name used).2 = insert (sanitize_sheet_name name used).1 used := by
  simp only [sanitize_sheet_name]

/-! ### Title validity (claim C1) -/

theorem pyStrip_subset (l : PyStr) : pyStrip l ⊆ l := by
  intro x hx
  simp only [pyStrip] at hx
  have h1 := List.mem_reverse.mp hx
  have h2 := (List.dropWhile_sublist pyIsSpace).subset h1
  have h3 := List.mem_reverse.mp h2
  exact (List.dropWhile_sublist pyIsSpace).subset h3

theorem pySliceTo_subset (s : PyStr) (n : Int) : pySliceTo s n ⊆ s := by
  unfold pySliceTo
  split <;> exact List.take_subset _ _

theorem sanitizeBase_length_le (name : PyStr) : (sanitizeBase name).length ≤ MAX_SHEET_LEN := by
  simp only [sanitizeBase, List.length_take]
  omega

theorem sanitizeBase_length_pos (name : PyStr) : 0 < (sanitizeBase name).length := by
  simp only [sanitizeBase, MAX_SHEET_LEN, List.length_take]
  split
  · decide
  · rename_i hne
    have := List.length_pos.mpr hne
    omega

theorem sanitizeBase_ne_nil (name : PyStr) : sanitizeBase name ≠ [] :=
  List.length_pos.mp (sanitizeBase_length_pos name)

theorem sanitizeBase_chars (name : PyStr) : ∀ c ∈ sanitizeBase name, c ∉ ILLEGAL_SHEET_CHARS := by
  intro c hc
  simp only [sanitizeBase] at hc
  have hc2 := List.take_subset _ _ hc
  split at hc2
  · fin_cases hc2 <;> decide
  · have hc3 := pyStrip_subset _ hc2
    rcases List.mem_map.mp hc3 with ⟨a, _, rfl⟩
    split
    · decide
    · assumption

theorem candidateAt_chars (base : PyStr) (hb : ∀ c ∈ base, c ∉ ILLEGAL_SHEET_CHARS) (k : Nat) :
    ∀ c ∈ candidateAt base k, c ∉ ILLEGAL_SHEET_CHARS := by
  intro c hc
  by_cases hk : k = 0
  · rw [hk] at hc
    simp only [candidateAt, if_pos rfl] at hc
    exact hb c hc
  · simp only [candidateAt, if_neg hk] at hc
    rcases List.mem_append.mp hc with h | h
    · exact hb c (pySliceTo_subset _ _ h)
    · rcases List.mem_cons.mp h with rfl | hd
      · decide
      · have := mem_natDigits hd
        fin_cases this <;> decide

theorem candidateAt_ne_nil (base : PyStr) (hb : base ≠ []) (k : Nat) :
    candidateAt base k ≠ [] := by
  by_cases hk : k = 0
  · simpa [candidateAt, hk] using hb
  · simp [candidateAt, if_neg hk, suffixOf]

/-- Digit-count bound: numbers below `10 ^ d` have at most `d` digits. -/
theorem natDigits_length_le (d : Nat) (hd : 0 < d) (n : Nat) (hn : n < 10 ^ d) :
    (natDigits n).length ≤ d := by
  induction d generalizing n with
  | zero => omega
  | succ d ih =>
    rw [natDigits_eq]
    by_cases h : n < 10
    · rw [if_pos h]
      simp
    · rw [if_neg h, List.length_append]
      have hd0 : 0 < d := by
        by_contra hc
        have hd1 : d = 0 := by omega
        subst hd1
        norm_num at hn
        omega
      have hq : n / 10 < 10 ^ d := by
        rw [pow_succ] at hn
        exact (Nat.div_lt_iff_lt_mul (by omega)).mpr hn
      have := ih hd0 (n / 10) hq
      simp only [List.length_singleton]
      omega

theorem candidateAt_length_le (base : PyStr) (hb : base.length ≤ MAX_SHEET_LEN) {k : Nat}
    (hk : k < 10 ^ 30) : (candidateAt base k).length ≤ MAX_SHEET_LEN := by
  by_cases h0 : k = 0
  · simpa [candidateAt, h0] using hb
  · have hdig : (natDigits k).length ≤ 30 := natDigits_length_le 30 (by omega) k hk
    simp only [candidateAt, if_neg h0, List.length_append, suffixOf, List.length_cons]
    have hn : ¬ ((MAX_SHEET_LEN : Int) - (((natDigits k).length + 1 : Nat) : Int) < 0) := by
      simp only [MAX_SHEET_LEN]
      push_cast
      omega
    rw [pySliceTo, if_neg hn, List.length_take]
    simp only [MAX_SHEET_LEN] at *
    omega

/-- The uniqueness loop stops within `|used| + 1` steps: candidates at
distinct steps are distinct strings, and each step before the stop was
blocked by a member of the set. -/
theorem freshStep_le_card (base : PyStr) (used : Finset PyStr) :
    freshStep base used ≤ used.card + 1 := by
  by_contra h
  push_neg at h
  have hmem : ∀ j, j ≤ used.card + 1 → candidateAt base j ∈ used := fun j hj =>
    freshStep_min base used (by omega)
  have hsub : Finset.image (fun k : Nat => candidateAt base k)
      (Finset.Icc 1 (used.card + 1)) ⊆ used := by
    intro x hx
    rcases Finset.mem_image.mp hx with ⟨k, hk, rfl⟩
    exact hmem k (Finset.mem_Icc.mp hk).2
  have hinj : Set.InjOn (fun k : Nat => candidateAt base k)
      (Finset.Icc 1 (used.card + 1)) := by
    intro a ha b hb hab
    have ha1 := (Finset.mem_Icc.mp (Finset.mem_coe.mp ha)).1
    have hb1 := (Finset.mem_Icc.mp (Finset.mem_coe.mp hb)).1
    exact candidateAt_inj base (by omega) (by omega) hab
  have hcard := Finset.card_le_card hsub
  rw [Finset.card_image_of_injOn hinj, Nat.card_Icc] at hcard
  omega

/-- Claim C1 (amended): for every input name and used-names set, the
returned title is non-empty and free of the illegal characters; and
whenever the used-names set has fewer than `10 ^ 30 - 1` entries (so the
loop counter's suffix `_counter` still fits inside 31 characters — always
the case in any feasible run) the title is at most 31 characters long.
The size proviso is forced: `C1_counterexample` below shows a (purely
mathematical) used-names set for which the title gets 62 characters long,
because Python's `base[:MAX_SHEET_LEN - len(suffix)]` slices with a
negative bound once `len(suffix) > 31` instead of clamping to the limit. -/
theorem C1_title_valid (name : PyStr) (used : Finset PyStr) :
    (sanitize_sheet_name name used).1 ≠ [] ∧
    (∀ c ∈ (sanitize_sheet_name name used).1, c ∉ ILLEGAL_SHEET_CHARS) ∧
    (used.card + 1 < 10 ^ 30 → (sanitize_sheet_name name used).1.length ≤ MAX_SHEET_LEN) := by
  rw [sanitize_fst_eq]
  refine ⟨candidateAt_ne_nil _ (sanitizeBase_ne_nil name) _,
    candidateAt_chars _ (sanitizeBase_chars name) _, fun hcard => ?_⟩
  exact candidateAt_length_le _ (sanitizeBase_length_le name)
    (by have := freshStep_le_card (sanitizeBase name) used; omega)

/-- Witness for `C1_title_valid` at a concrete input. -/
theorem C1_title_valid_w :
    (sanitize_sheet_name "ab.csv".data ∅).1 ≠ [] ∧
    (∀ c ∈ (sanitize_sheet_name "ab.csv".data ∅).1, c ∉ ILLEGAL_SHEET_CHARS) ∧
    (sanitize_sheet_name "ab.csv".data ∅).1.length ≤ MAX_SHEET_LEN :=
  ⟨(C1_title_valid "ab.csv".data ∅).1, (C1_title_valid "ab.csv".data ∅).2.1,
    (C1_title_valid "ab.csv".data ∅).2.2 (by norm_num)⟩

/-! ### The oversized-title corner (counterexamples for C1 and C7) -/

theorem natDigits_pow_length (d : Nat) : (natDigits (10 ^ d)).length = d + 1 := by
  induction d with
  | zero =>
    rw [natDigits_eq]
    norm_num
  | succ d ih =>
    rw [natDigits_eq]
    have h10 : ¬ 10 ^ (d + 1) < 10 := by
      have hp : (10 : Nat) ^ 1 ≤ 10 ^ (d + 1) := Nat.pow_le_pow_right (by omega) (by omega)
      simp only [pow_one] at hp
      omega
    rw [if_neg h10, List.length_append]
    have hdiv : 10 ^ (d + 1) / 10 = 10 ^ d := by
      rw [pow_succ]
      exact Nat.mul_div_cancel _ (by omega)
    rw [hdiv, ih]
    simp

theorem mem_hugeUsed {base : PyStr} {m : Nat} (hm : m < 10 ^ 30) :
    candidateAt base m ∈ hugeUsed base :=
  Finset.mem_image.mpr ⟨m, Finset.mem_range.mpr hm, rfl⟩

theorem hugeUsed_length_le {base : PyStr} (hb : base.length ≤ MAX_SHEET_LEN) :
    ∀ s ∈ hugeUsed base, s.length ≤ MAX_SHEET_LEN := by
  intro s hs
  rcases Finset.mem_image.mp hs with ⟨k, hk, rfl⟩
  exact candidateAt_length_le base hb (Finset.mem_range.mp hk)

/-- At counter `10 ^ 30` the suffix `_1000...0` is 32 characters long, the
slice bound `31 - 32 = -1` is negative, so Python keeps 30 of the 31 base
characters and appends all 32 suffix characters: 62 characters total. -/
theorem candidateAt_pow30_length {base : PyStr} (hb : base.length = 31) :
    (candidateAt base (10 ^ 30)).length = 62 := by
  have h0 : (10 : Nat) ^ 30 ≠ 0 := by positivity
  have hsuf : (suffixOf (10 ^ 30)).length = 32 := by
    rw [suffixOf, List.length_cons, natDigits_pow_length 30]
  have hneg : ((MAX_SHEET_LEN : Int) - ((32 : Nat) : Int)) < 0 := by
    rw [MAX_SHEET_LEN_eq]
    omega
  rw [candidateAt, if_neg h0, List.length_append, hsuf, pySliceTo, if_pos hneg,
    List.length_take, hb, MAX_SHEET_LEN_eq]
  omega

theorem freshStep_hugeUsed {base : PyStr} (hb : base.length = 31) :
    freshStep base (hugeUsed base) = 10 ^ 30 := by
  apply freshStep_eq
  · intro hmem
    have h62 := candidateAt_pow30_length hb
    have hle := hugeUsed_length_le (by rw [MAX_SHEET_LEN_eq]; omega) _ hmem
    rw [MAX_SHEET_LEN_eq] at hle
    omega
  · intro j hj
    exact mem_hugeUsed hj

/-- Claim C1 counterexample: for the 31-character name `aaaName` and the
used-names set holding every candidate with counter below `10 ^ 30`, the
sanitizer returns a 62-character title — refuting "at most 31 characters
long" as universally stated over all names and used-names sets. -/
theorem C1_counterexample :
    MAX_SHEET_LEN < ((sanitize_sheet_name aaaName (hugeUsed aaaName)).1).length := by
  have hbase : sanitizeBase aaaName = aaaName := by decide
  have hlen : aaaName.length = 31 := by decide
  rw [sanitize_fst_eq, hbase, freshStep_hugeUsed hlen, candidateAt_pow30_length hlen]
  decide

/-! ### Title uniqueness across the per-file loop (claim C2) -/

theorem buildSheets_titles_not_mem (readRows : PyStr → List Row × Option PyStr)
    (ps : List PyStr) (used : Finset PyStr) :
    ∀ s ∈ buildSheets readRows ps used, s.title ∉ used := by
  induction ps generalizing used with
  | nil => simp [buildSheets]
  | cons p ps ih =>
    intro s hs
    simp only [buildSheets] at hs
    rcases List.mem_cons.mp hs with rfl | hmem
    · exact sanitize_fst_not_mem (pyBasename p) used
    · intro hin
      refine ih ((sanitize_sheet_name (pyBasename p) used).2) s hmem ?_
      rw [sanitize_snd_eq]
      exact Finset.mem_insert_of_mem hin

theorem buildSheets_titles_nodup (readRows : PyStr → List Row × Option PyStr)
    (ps : List PyStr) (used : Finset PyStr) :
    ((buildSheets readRows ps used).map Sheet.title).Nodup := by
  induction ps generalizing used with
  | nil => simp [buildSheets]
  | cons p ps ih =>
    simp only [buildSheets, List.map_cons, List.nodup_cons]
    refine ⟨fun hmem => ?_, ih _⟩
    rcases List.mem_map.mp hmem with ⟨s, hs, heq⟩
    refine buildSheets_titles_not_mem readRows ps _ s hs ?_
    rw [heq, sanitize_snd_eq]
    exact Finset.mem_insert_self _ _

/-- Claim C2: the titles produced by one run of the per-file loop (one
`sanitize_sheet_name` call per discovered file, all against the one shared
used-names set) are pairwise distinct; the sanitizer never returns a string
already in the set it was given, and it records the returned string in the
set before returning. -/
theorem C2_titles_unique (readRows : PyStr → List Row × Option PyStr)
    (files : List PyStr) (used : Finset PyStr) (name : PyStr) :
    ((buildSheets readRows files used).map Sheet.title).Nodup ∧
    (sanitize_sheet_name name used).1 ∉ used ∧
    (sanitize_sheet_name name used).2 = insert (sanitize_sheet_name name used).1 used :=
  ⟨buildSheets_titles_nodup readRows files used, sanitize_fst_not_mem name used,
    sanitize_snd_eq name used⟩

/-! ### Per-file failure containment (claim C3) -/

theorem buildSheets_map_rows (readRows : PyStr → List Row × Option PyStr)
    (ps : List PyStr) (used : Finset PyStr) :
    (buildSheets readRows ps used).map Sheet.rows = ps.map (fun p => (readRows p).1) := by
  induction ps generalizing used with
  | nil => simp [buildSheets]
  | cons p ps ih => simp [buildSheets, ih]

/-- Claim C3: whatever the per-file read results are — including any file
whose row reading stops with an error — the run returns the full workbook:
one sheet per discovered file, in order, each holding exactly the rows its
reader produced before finishing or failing (an immediately-failing file
keeps an empty sheet).  The error of one file never turns the whole run
into a failure. -/
theorem C3_per_file_containment (input_dir : PyStr) (listing : List PyStr)
    (walk : List (PyStr × List PyStr)) (recursive : Bool)
    (readRows : PyStr → List Row × Option PyStr)
    (hne : find_csv_files input_dir listing walk recursive ≠ []) :
    ∃ sheets, combine_csvs_to_excel input_dir listing walk recursive readRows =
        Except.ok sheets ∧
      sheets.map Sheet.rows =
        (find_csv_files input_dir listing walk recursive).map (fun p => (readRows p).1) := by
  refine ⟨buildSheets readRows (find_csv_files input_dir listing walk recursive) ∅, ?_, ?_⟩
  · simp only [combine_csvs_to_excel]
    rw [if_neg hne]
  · exact buildSheets_map_rows readRows _ _

/-- Witness for `C3_per_file_containment`: one discovered file whose reader
fails immediately still yields a successful run with one empty sheet. -/
theorem C3_per_file_containment_w :
    ∃ sheets, combine_csvs_to_excel "d".data ["a.csv".data] [] false
        (fun _ => ([], some "boom".data)) = Except.ok sheets ∧
      sheets.map Sheet.rows =
        (find_csv_files "d".data ["a.csv".data] [] false).map
          (fun _ => ([] : List Row)) :=
  C3_per_file_containment "d".data ["a.csv".data] [] false
    (fun _ => ([], some "boom".data)) (by decide)

/-! ### Collision resolution by numeric suffixes (claims C7 and C9) -/

/-- Claim C7 (amended): when the (truncated) base already collides with the
used-names set, the loop returns the candidate of some step `k ≥ 1`, formed
as `base[:MAX_SHEET_LEN - len(suffix)]` followed by the *entire* suffix
`_k`; the exact suffixed candidate of every earlier step was found in the
set (the counter increases until the candidate is unused); and — under the
same feasibility proviso as C1, forced by `C7_counterexample` — the
truncation of the base keeps the suffixed result within 31 characters. -/
theorem C7_collision_suffix (name : PyStr) (used : Finset PyStr)
    (hcoll : sanitizeBase name ∈ used) :
    ∃ k, 1 ≤ k ∧
      (sanitize_sheet_name name used).1 =
        pySliceTo (sanitizeBase name) ((MAX_SHEET_LEN : Int) - ((suffixOf k).length : Int)) ++
          suffixOf k ∧
      candidateAt (sanitizeBase name) k ∉ used ∧
      (∀ j < k, candidateAt (sanitizeBase name) j ∈ used) ∧
      (used.card + 1 < 10 ^ 30 → (sanitize_sheet_name name used).1.length ≤ MAX_SHEET_LEN) := by
  have hk0 : freshStep (sanitizeBase name) used ≠ 0 := by
    intro h0
    have hnm := freshStep_not_mem (sanitizeBase name) used
    rw [h0] at hnm
    simp only [candidateAt, if_pos rfl] at hnm
    exact hnm hcoll
  refine ⟨freshStep (sanitizeBase name) used, by omega, ?_, freshStep_not_mem _ _,
    fun j hj => freshStep_min _ _ hj, fun hcard => ?_⟩
  · rw [sanitize_fst_eq, candidateAt, if_neg hk0]
  · rw [sanitize_fst_eq]
    exact candidateAt_length_le _ (sanitizeBase_length_le name)
      (by have := freshStep_le_card (sanitizeBase name) used; omega)

/-- Witness for `C7_collision_suffix` at the singleton set already holding
the base name `x`. -/
theorem C7_collision_suffix_w :
    ∃ k, 1 ≤ k ∧
      (sanitize_sheet_name "x".data {"x".data}).1 =
        pySliceTo (sanitizeBase "x".data)
            ((MAX_SHEET_LEN : Int) - ((suffixOf k).length : Int)) ++ suffixOf k ∧
      candidateAt (sanitizeBase "x".data) k ∉ ({"x".data} : Finset PyStr) ∧
      (∀ j < k, candidateAt (sanitizeBase "x".data) j ∈ ({"x".data} : Finset PyStr)) ∧
      (sanitize_sheet_name "x".data {"x".data}).1.length ≤ MAX_SHEET_LEN := by
  obtain ⟨k, h1, h2, h3, h4, h5⟩ := C7_collision_suffix "x".data {"x".data} (by decide)
  exact ⟨k, h1, h2, h3, h4, h5 (by rw [Finset.card_singleton]; norm_num)⟩

/-- Claim C7 counterexample: with the base name `bbbName` (31 characters)
already colliding — the used-names set holds it together with every
candidate of counter below `10 ^ 30` — the suffixed result does *not* fit
the 31-character limit: it is 62 characters long. -/
theorem C7_counterexample :
    sanitizeBase bbbName ∈ hugeUsed bbbName ∧
    MAX_SHEET_LEN < ((sanitize_sheet_name bbbName (hugeUsed bbbName)).1).length := by
  have hbase : sanitizeBase bbbName = bbbName := by decide
  have hlen : bbbName.length = 31 := by decide
  constructor
  · rw [hbase]
    have h := @mem_hugeUsed bbbName 0 (by positivity)
    simpa [candidateAt] using h
  · rw [sanitize_fst_eq, hbase, freshStep_hugeUsed hlen, candidateAt_pow30_length hlen]
    decide

theorem buildSheets_append (readRows : PyStr → List Row × Option PyStr)
    (xs ys : List PyStr) (used : Finset PyStr) :
    buildSheets readRows (xs ++ ys) used =
      buildSheets readRows xs used ++ buildSheets readRows ys (sanitizeFoldUsed xs used) := by
  induction xs generalizing used with
  | nil => simp [buildSheets, sanitizeFoldUsed]
  | cons p ps ih =>
    have hfold : sanitizeFoldUsed (p :: ps) used =
        sanitizeFoldUsed ps ((sanitize_sheet_name (pyBasename p) used).2) := by
      simp [sanitizeFoldUsed]
    simp only [List.cons_append, buildSheets, List.append_eq]
    rw [ih, hfold]

theorem sanitizeFoldUsed_append (xs ys : List PyStr) (used : Finset PyStr) :
    sanitizeFoldUsed (xs ++ ys) used = sanitizeFoldUsed ys (sanitizeFoldUsed xs used) := by
  simp [sanitizeFoldUsed, List.foldl_append]

theorem subset_sanitizeFoldUsed (ps : List PyStr) (used : Finset PyStr) :
    used ⊆ sanitizeFoldUsed ps used := by
  induction ps generalizing used with
  | nil =>
    intro x hx
    simpa [sanitizeFoldUsed] using hx
  | cons p ps ih =>
    intro x hx
    have step : x ∈ (sanitize_sheet_name (pyBasename p) used).2 := by
      rw [sanitize_snd_eq]
      exact Finset.mem_insert_of_mem hx
    have := ih ((sanitize_sheet_name (pyBasename p) used).2) step
    simpa [sanitizeFoldUsed] using this

/-- After a name is sanitized, its (truncated) base is in the used-names
set: either the base itself was just inserted, or it was already there
(that is why a suffix was needed). -/
theorem sanitizeBase_mem_snd (name : PyStr) (used : Finset PyStr) :
    sanitizeBase name ∈ (sanitize_sheet_name name used).2 := by
  by_cases h : freshStep (sanitizeBase name) used = 0
  · have hfst : (sanitize_sheet_name name used).1 = sanitizeBase name := by
      rw [sanitize_fst_eq, h]
      simp [candidateAt]
    rw [sanitize_snd_eq, ← hfst]
    exact Finset.mem_insert_self _ _
  · rw [sanitize_snd_eq]
    refine Finset.mem_insert_of_mem ?_
    have hmem := freshStep_min (sanitizeBase name) used
      (show 0 < freshStep (sanitizeBase name) used by omega)
    simpa [candidateAt] using hmem

/-- Claim C9: worksheet titles are computed from the file's base filename
only, so (first part) runs over path lists with identical basenames produce
identical title lists, whatever the directories and read results; and
(second part) when two files of one run share a basename, the later one is
assigned a suffixed candidate `base[:31 - len("_k")] + "_k"` with `k ≥ 1` —
its bare base name was already taken. -/
theorem C9_basename_only (readRows readRows' : PyStr → List Row × Option PyStr)
    (used : Finset PyStr) :
    (∀ files files' : List PyStr, files.map pyBasename = files'.map pyBasename →
      (buildSheets readRows files used).map Sheet.title =
        (buildSheets readRows' files' used).map Sheet.title) ∧
    (∀ l1 l2 l3 : List PyStr, ∀ a b : PyStr, pyBasename a = pyBasename b →
      ∃ k, 1 ≤ k ∧
        (buildSheets readRows (l1 ++ a :: l2 ++ b :: l3) used).map Sheet.title =
          (buildSheets readRows (l1 ++ a :: l2) used).map Sheet.title ++
            (pySliceTo (sanitizeBase (pyBasename b))
                ((MAX_SHEET_LEN : Int) - ((suffixOf k).length : Int)) ++ suffixOf k) ::
              (buildSheets readRows l3
                (sanitizeFoldUsed (l1 ++ a :: l2 ++ [b]) used)).map Sheet.title) := by
  constructor
  · intro files
    induction files generalizing used with
    | nil =>
      intro files' h
      have hnil : files' = [] := by
        cases files' with
        | nil => rfl
        | cons q qs => simp at h
      subst hnil
      simp [buildSheets]
    | cons p ps ih =>
      intro files' h
      cases files' with
      | nil => simp at h
      | cons q qs =>
        simp only [List.map_cons, List.cons.injEq] at h
        obtain ⟨hpq, hrest⟩ := h
        simp only [buildSheets, List.map_cons]
        rw [hpq]
        congr 1
        exact ih _ qs hrest
  · intro l1 l2 l3 a b hab
    have hsplit : l1 ++ a :: l2 ++ b :: l3 = (l1 ++ a :: l2) ++ b :: l3 := by simp
    have hbmem : sanitizeBase (pyBasename b) ∈ sanitizeFoldUsed (l1 ++ a :: l2) used := by
      have hX : l1 ++ a :: l2 = (l1 ++ [a]) ++ l2 := by simp
      rw [hX, sanitizeFoldUsed_append]
      apply subset_sanitizeFoldUsed
      rw [sanitizeFoldUsed_append]
      have h1 : sanitizeFoldUsed [a] (sanitizeFoldUsed l1 used) =
          (sanitize_sheet_name (pyBasename a) (sanitizeFoldUsed l1 used)).2 := by
        simp [sanitizeFoldUsed]
      rw [h1, ← hab]
      exact sanitizeBase_mem_snd (pyBasename a) _
    have hk0 :
        freshStep (sanitizeBase (pyBasename b)) (sanitizeFoldUsed (l1 ++ a :: l2) used) ≠ 0 := by
      intro h0
      have hnm := freshStep_not_mem (sanitizeBase (pyBasename b))
        (sanitizeFoldUsed (l1 ++ a :: l2) used)
      rw [h0, candidateAt_zero] at hnm
      exact hnm hbmem
    refine ⟨freshStep (sanitizeBase (pyBasename b)) (sanitizeFoldUsed (l1 ++ a :: l2) used),
      by omega, ?_⟩
    rw [hsplit, buildSheets_append, List.map_append]
    congr 1
    simp only [buildSheets, List.map_cons]
    congr 1
    · rw [sanitize_fst_eq, candidateAt, if_neg hk0]
    · have h2 : sanitizeFoldUsed (l1 ++ a :: l2 ++ [b]) used =
          (sanitize_sheet_name (pyBasename b) (sanitizeFoldUsed (l1 ++ a :: l2) used)).2 := by
        have hY : l1 ++ a :: l2 ++ [b] = (l1 ++ a :: l2) ++ [b] := by simp
        rw [hY, sanitizeFoldUsed_append]
        simp [sanitizeFoldUsed]
      rw [h2]

/-- Witness for `C9_basename_only`: two files named `x.csv` in different
directories get the titles `x` and `x_1`. -/
theorem C9_basename_only_w :
    ((buildSheets (fun _ => ([], none)) ["d1/x.csv".data] ∅).map Sheet.title =
      (buildSheets (fun _ => ([], some "e".data)) ["d2/x.csv".data] ∅).map Sheet.title) ∧
    (∃ k, 1 ≤ k ∧
      (buildSheets (fun _ => (([] : List Row), (none : Option PyStr)))
          ["d1/x.csv".data, "d2/x.csv".data] ∅).map Sheet.title =
        (buildSheets (fun _ => (([] : List Row), (none : Option PyStr)))
            ["d1/x.csv".data] ∅).map Sheet.title ++
          (pySliceTo (sanitizeBase (pyBasename "d2/x.csv".data))
              ((MAX_SHEET_LEN : Int) - ((suffixOf k).length : Int)) ++ suffixOf k) ::
            (buildSheets (fun _ => (([] : List Row), (none : Option PyStr))) []
              (sanitizeFoldUsed ["d1/x.csv".data, "d2/x.csv".data] ∅)).map Sheet.title) :=
  ⟨(C9_basename_only (fun _ => ([], none)) (fun _ => ([], some "e".data)) ∅).1 _ _ (by decide),
    (C9_basename_only (fun _ => ([], none)) (fun _ => ([], none)) ∅).2 [] [] []
      "d1/x.csv".data "d2/x.csv".data (by decide)⟩

/-! ### Dialect sniffing (claims C4 and C5) -/

/-- Claim C4: the sniffer always returns a dialect (`Except.ok` — the
`try/except Exception` swallows every sniffing failure, and the permissive
decode is total), and on every failure path without a truthy override the
returned dialect is the `csv.excel` comma fallback. -/
theorem C4_sniffer_never_raises (sample : List Nat) (provided : Option PyStr)
    (decode : List Nat → PyStr) (sniffer : PyStr → Except PyStr Dialect) :
    ∃ d, sniff_dialect sample provided decode sniffer = Except.ok d ∧
      ((provided = none ∨ provided = some []) →
        ∀ e, sniffer (decode sample) = Except.error e → d = csvExcel) := by
  rcases provided with _ | d
  · cases hs : sniffer (decode sample) with
    | ok dia =>
      refine ⟨dia, by simp [sniff_dialect, hs], fun _ e he => ?_⟩
      exact Except.noConfusion he
    | error e =>
      exact ⟨csvExcel, by simp [sniff_dialect, hs], fun _ _ _ => rfl⟩
  · by_cases hd : d.isEmpty
    · cases hs : sniffer (decode sample) with
      | ok dia =>
        refine ⟨dia, by simp [sniff_dialect, hd, hs], fun _ e he => ?_⟩
        exact Except.noConfusion he
      | error e =>
        exact ⟨csvExcel, by simp [sniff_dialect, hd, hs], fun _ _ _ => rfl⟩
    · refine ⟨⟨d⟩, by simp [sniff_dialect, hd], fun hcase e he => ?_⟩
      exfalso
      rcases hcase with h | h
      · exact Option.noConfusion h
      · have hnil : d = [] := Option.some.inj h
        rw [hnil] at hd
        exact hd rfl

/-- Witness for `C4_sniffer_never_raises`: a failing sniffing oracle on an
arbitrary byte sample resolves to the comma dialect. -/
theorem C4_sniffer_never_raises_w :
    sniff_dialect [1, 2] none emptyDecode failSniffer = Except.ok csvExcel := by
  obtain ⟨d, h1, h2⟩ := C4_sniffer_never_raises [1, 2] none emptyDecode failSniffer
  have hd : d = csvExcel := h2 (Or.inl rfl) "Could not determine delimiter".data rfl
  rw [hd] at h1
  exact h1

/-- Claim C5 (amended): a supplied *non-empty* override is honored exactly —
the returned dialect's delimiter is the override — and the sample, the
decoder and the sniffing oracle have no influence on the result.  The
non-emptiness proviso is forced by `C5_counterexample`: Python's truthiness
test `if provided_delimiter:` treats a supplied empty-string override as
absent and sniffs anyway. -/
theorem C5_override_honored (sample sample' : List Nat) (d : PyStr)
    (decode decode' : List Nat → PyStr) (sniffer sniffer' : PyStr → Except PyStr Dialect)
    (hd : d ≠ []) :
    sniff_dialect sample (some d) decode sniffer = Except.ok ⟨d⟩ ∧
    sniff_dialect sample (some d) decode sniffer =
      sniff_dialect sample' (some d) decode' sniffer' := by
  have hne : d.isEmpty = false := by
    cases d with
    | nil => exact absurd rfl hd
    | cons c cs => rfl
  constructor <;> simp [sniff_dialect, hne]

/-- Witness for `C5_override_honored` with the override `;`. -/
theorem C5_override_honored_w :
    sniff_dialect [] (some [';']) emptyDecode failSniffer = Except.ok ⟨[';']⟩ ∧
    sniff_dialect [] (some [';']) emptyDecode failSniffer =
      sniff_dialect [9] (some [';']) (fun _ => "a,b".data) semiSniffer :=
  C5_override_honored [] [9] [';'] emptyDecode (fun _ => "a,b".data) failSniffer semiSniffer
    (by decide)

/-- Claim C5 counterexample: the empty string as supplied override is not
honored — the result is the comma fallback (delimiter `,`, not the supplied
empty string), and sniffing does run: a different sniffing oracle changes
the result. -/
theorem C5_counterexample :
    sniff_dialect [] (some []) emptyDecode failSniffer = Except.ok csvExcel ∧
    csvExcel.delimiter ≠ [] ∧
    sniff_dialect [] (some []) emptyDecode failSniffer ≠
      sniff_dialect [] (some []) emptyDecode semiSniffer := by
  refine ⟨rfl, by decide, fun h => ?_⟩
  have h1 : sniff_dialect [] (some []) emptyDecode failSniffer = Except.ok csvExcel := rfl
  have h2 : sniff_dialect [] (some []) emptyDecode semiSniffer =
      Except.ok (⟨[';']⟩ : Dialect) := rfl
  rw [h1, h2] at h
  exact absurd (congrArg Dialect.delimiter (Except.ok.inj h)) (by decide)

/-! ### File discovery (claim C6) -/

/-- Claim C6: the discoverer returns exactly the collected entries whose
name case-insensitively ends in `.csv` (joined onto their directory), as a
sequence sorted ascending by the case-insensitive base filename; on the
direct children `B.csv`, `a.csv`, `C.CSV` of directory `d` it returns
`d/a.csv, d/B.csv, d/C.CSV`. -/
theorem C6_discovery (input_dir : PyStr) (listing : List PyStr)
    (walk : List (PyStr × List PyStr)) (recursive : Bool) :
    (find_csv_files input_dir listing walk recursive).Perm
      (if recursive
        then walk.flatMap (fun rf => (rf.2.filter isCsvName).map (pyJoin rf.1))
        else (listing.filter isCsvName).map (pyJoin input_dir)) ∧
    (find_csv_files input_dir listing walk recursive).Pairwise fileOrder ∧
    find_csv_files "d".data ["B.csv".data, "a.csv".data, "C.CSV".data] [] false =
      ["d/a.csv".data, "d/B.csv".data, "d/C.CSV".data] := by
  refine ⟨?_, ?_, by decide⟩
  · unfold find_csv_files
    exact List.perm_insertionSort fileOrder _
  · unfold find_csv_files
    exact List.sorted_insertionSort fileOrder _

/-! ### Extension stripping (claim C8) -/

theorem takeWhile_eq_self_of_all {α : Type} (q : α → Bool) (l : List α)
    (h : ∀ x ∈ l, q x = true) : l.takeWhile q = l := by
  have h2 := takeWhile_append_of_all q l [] h
  simpa using h2

theorem takeWhile_length_eq_all {α : Type} (q : α → Bool) (l : List α)
    (h : (l.takeWhile q).length = l.length) : ∀ x ∈ l, q x = true := by
  induction l with
  | nil => simp
  | cons a t ih =>
    rw [List.takeWhile_cons] at h
    by_cases hq : q a = true
    · rw [if_pos hq] at h
      simp only [List.length_cons, Nat.add_right_cancel_iff] at h
      intro x hx
      rcases List.mem_cons.mp hx with rfl | hx
      · exact hq
      · exact ih h x hx
    · rw [if_neg hq] at h
      simp at h

theorem dropWhile_cons_head {α : Type} (q : α → Bool) (l : List α) (y : α) (ys : List α)
    (h : l.dropWhile q = y :: ys) : q y = false := by
  induction l with
  | nil => simp [List.dropWhile] at h
  | cons a t ih =>
    rw [List.dropWhile_cons] at h
    by_cases hq : q a = true
    · rw [if_pos hq] at h
      exact ih h
    · rw [if_neg hq] at h
      injection h with h1 h2
      subst h1
      exact Bool.eq_false_iff.mpr hq

theorem append_take_of_eq {l d b : List Char} (h : l = d ++ b) :
    l = l.take (l.length - b.length) ++ b := by
  subst h
  have hlen : (d ++ b).length - b.length = d.length := by
    rw [List.length_append]
    omega
  rw [hlen, List.take_left]

/-- A path is its directory part (everything up to and including the last
`/`) followed by its basename. -/
theorem pyBasename_split (p : PyStr) :
    p = p.take (p.length - (pyBasename p).length) ++ pyBasename p := by
  have h1 : p.reverse.takeWhile (fun c => c != '/') ++ p.reverse.dropWhile (fun c => c != '/') =
      p.reverse := List.takeWhile_append_dropWhile _ _
  have h2 := congrArg List.reverse h1
  simp only [List.reverse_append, List.reverse_reverse] at h2
  rw [pyBasename]
  exact append_take_of_eq h2.symm

theorem pyBasename_no_slash (p : PyStr) : ∀ c ∈ pyBasename p, (c != '/') = true := by
  intro c hc
  rw [pyBasename] at hc
  have hc2 : c ∈ List.takeWhile (fun x => x != '/') p.reverse := List.mem_reverse.mp hc
  exact List.mem_takeWhile_imp (p := fun x => x != '/') hc2

/-- The directory part is empty or ends with a `/`. -/
theorem pyBasename_dir_shape (p : PyStr) :
    p.take (p.length - (pyBasename p).length) = [] ∨
    ∃ d0, p.take (p.length - (pyBasename p).length) = d0 ++ ['/'] := by
  have hdir : p.take (p.length - (pyBasename p).length) =
      (p.reverse.dropWhile (fun c => c != '/')).reverse := by
    have h1 : p.reverse.takeWhile (fun c => c != '/') ++
        p.reverse.dropWhile (fun c => c != '/') = p.reverse :=
      List.takeWhile_append_dropWhile _ _
    have h2 := congrArg List.reverse h1
    simp only [List.reverse_append, List.reverse_reverse] at h2
    have h3 : p.take (p.length - (pyBasename p).length) ++ pyBasename p =
        (p.reverse.dropWhile (fun c => c != '/')).reverse ++ pyBasename p := by
      rw [← pyBasename_split p, pyBasename]
      exact h2.symm
    exact List.append_cancel_right h3
  rw [hdir]
  cases hd : p.reverse.dropWhile (fun c => c != '/') with
  | nil =>
    left
    simp
  | cons y ys =>
    right
    have hy : (y != '/') = false := dropWhile_cons_head _ _ y ys hd
    have hy2 : y = '/' := by simpa using hy
    subst hy2
    exact ⟨ys.reverse, by simp⟩

theorem pyBasename_append_no_slash (d s : PyStr) (hs : ∀ c ∈ s, (c != '/') = true)
    (hd : d = [] ∨ ∃ d0, d = d0 ++ ['/']) : pyBasename (d ++ s) = s := by
  rw [pyBasename, List.reverse_append]
  rcases hd with rfl | ⟨d0, rfl⟩
  · simp only [List.reverse_nil, List.append_nil]
    rw [takeWhile_eq_self_of_all _ _ (fun x hx => hs x (List.mem_reverse.mp hx))]
    simp
  · have h1 : List.takeWhile (fun c => c != '/') (s.reverse ++ '/' :: d0.reverse) = s.reverse :=
      takeWhile_append_cons _ _ _ _ (fun x hx => hs x (List.mem_reverse.mp hx)) (by decide)
    have h2 : s.reverse ++ (d0 ++ ['/']).reverse = s.reverse ++ '/' :: d0.reverse := by simp
    rw [h2, h1, List.reverse_reverse]

theorem mem_of_mem_takeWhile {α : Type} {q : α → Bool} {l : List α} {a : α}
    (h : a ∈ l.takeWhile q) : a ∈ l := by
  induction l with
  | nil => simp at h
  | cons x t ih =>
    rw [List.takeWhile_cons] at h
    by_cases hq : q x = true
    · rw [if_pos hq] at h
      rcases List.mem_cons.mp h with rfl | h2
      · exact List.mem_cons_self _ _
      · exact List.mem_cons_of_mem _ (ih h2)
    · rw [if_neg hq] at h
      simp at h

/-- When the final segment contains a dot, it splits as
`stem ++ '.' :: ext` at the *last* dot, with `stem` the part the source
takes with `b.take (len(b) - len(ext) - 1)`. -/
theorem rev_takeWhile_dot_split (b : PyStr)
    (hne : ¬ (b.reverse.takeWhile (fun c => c != '.')).length = b.length) :
    b = b.take (b.length - (b.reverse.takeWhile (fun c => c != '.')).length - 1) ++
      '.' :: (b.reverse.takeWhile (fun c => c != '.')).reverse := by
  have h1 : b.reverse.takeWhile (fun c => c != '.') ++ b.reverse.dropWhile (fun c => c != '.') =
      b.reverse := List.takeWhile_append_dropWhile _ _
  cases hd : b.reverse.dropWhile (fun c => c != '.') with
  | nil =>
    exfalso
    rw [hd, List.append_nil] at h1
    have h2 := congrArg List.length h1
    rw [List.length_reverse] at h2
    exact hne h2
  | cons y ys =>
    have hy : (y != '.') = false := dropWhile_cons_head _ _ y ys hd
    have hy2 : y = '.' := by simpa using hy
    subst hy2
    rw [hd] at h1
    have h2 := congrArg List.reverse h1
    simp only [List.reverse_append, List.reverse_cons, List.reverse_reverse,
      List.append_assoc, List.singleton_append] at h2
    have hlen : b.length - (b.reverse.takeWhile (fun c => c != '.')).length - 1 =
        ys.reverse.length := by
      have h3 := congrArg List.length h2
      simp only [List.length_append, List.length_cons, List.length_reverse] at h3
      simp only [List.length_reverse]
      omega
    have htake : b.take ys.reverse.length = ys.reverse := by
      conv_lhs => rw [← h2]
      rw [List.take_left]
    rw [hlen, htake]
    exact h2.symm

/-- Splitting a string at a dot whose right part contains no further dot is
unique: it is the split at the last dot. -/
theorem last_dot_split {x1 y1 x2 y2 : List Char}
    (h : x1 ++ '.' :: y1 = x2 ++ '.' :: y2)
    (hy1 : ∀ c ∈ y1, (c != '.') = true) (hy2 : ∀ c ∈ y2, (c != '.') = true) :
    x1 = x2 ∧ y1 = y2 := by
  have hr := congrArg List.reverse h
  simp only [List.reverse_append, List.reverse_cons, List.append_assoc,
    List.singleton_append] at hr
  have h1 : List.takeWhile (fun c => c != '.') (y1.reverse ++ '.' :: x1.reverse) = y1.reverse :=
    takeWhile_append_cons _ _ _ _ (fun x hx => hy1 x (List.mem_reverse.mp hx)) (by decide)
  have h2 : List.takeWhile (fun c => c != '.') (y2.reverse ++ '.' :: x2.reverse) = y2.reverse :=
    takeWhile_append_cons _ _ _ _ (fun x hx => hy2 x (List.mem_reverse.mp hx)) (by decide)
  have hy : y1 = y2 := by
    refine List.reverse_injective (h1.symm.trans ?_)
    rw [hr]
    exact h2
  subst hy
  exact ⟨List.append_cancel_right h, rfl⟩

/-- A dot followed only by non-slash characters lies in the final path
segment. -/
theorem dot_mem_basename (p pre post : PyStr) (h : p = pre ++ '.' :: post)
    (hpost : ∀ c ∈ post, (c != '/') = true) : '.' ∈ pyBasename p := by
  rw [pyBasename, h]
  simp only [List.reverse_append, List.reverse_cons, List.append_assoc, List.singleton_append]
  rw [takeWhile_append_of_all _ _ _ (fun x hx => hpost x (List.mem_reverse.mp hx))]
  rw [List.takeWhile_cons]
  simp

/-- Claim C8 counterexample: on the dotfile-style name `.csv` the extension
step removes nothing — `os.path.splitext` does not treat a dot with only
dots before it in the segment as an extension separator — while the claim
("the text after the last dot in the final path segment is removed", here
leaving `".csv".take 0 = ""`) predicts the trailing `csv` suffix is lost. -/
theorem C8_counterexample :
    pySplitextRoot ".csv".data = ".csv".data ∧
    pySplitextRoot ".csv".data ≠ ".csv".data.take 0 := ⟨by decide, by decide⟩

/-- Claim C8 (amended): the extension-stripping step returns a prefix of the
input; whenever something is removed, the removed part is exactly one
dot-extension — a dot followed by characters of the final segment containing
no further dot — and some character of the remaining final segment before
that dot is not itself a dot; and nothing is removed exactly when no such
eligible extension exists (in particular for dotfile-style names such as
`.csv`, the case `C8_counterexample` exhibits, where everything before the
last dot is itself a dot). -/
theorem C8_splitext_amended (name : PyStr) :
    (∃ ext, name = pySplitextRoot name ++ ext) ∧
    (∀ ext, name = pySplitextRoot name ++ ext → ext ≠ [] →
      ∃ t, ext = '.' :: t ∧
        (∀ c ∈ t, (c != '.') = true ∧ (c != '/') = true) ∧
        (pyBasename (pySplitextRoot name)).any (fun c => c != '.') = true) ∧
    (pySplitextRoot name = name →
      ∀ pre post, name = pre ++ '.' :: post →
        (∀ c ∈ post, (c != '.') = true ∧ (c != '/') = true) →
        (pyBasename pre).any (fun c => c != '.') = false) := by
  by_cases hA : ((pyBasename name).reverse.takeWhile (fun c => c != '.')).length =
      (pyBasename name).length
  case pos =>
    have hroot : pySplitextRoot name = name := by
      simp only [pySplitextRoot]
      rw [if_pos hA]
    have hnodot : ∀ c ∈ pyBasename name, (c != '.') = true := by
      intro c hc
      have hA2 : ((pyBasename name).reverse.takeWhile (fun c => c != '.')).length =
          (pyBasename name).reverse.length := by
        rw [List.length_reverse]
        exact hA
      exact takeWhile_length_eq_all _ _ hA2 c (List.mem_reverse.mpr hc)
    refine ⟨⟨[], by rw [hroot, List.append_nil]⟩, ?_, ?_⟩
    · intro ext hext hne
      exfalso
      rw [hroot] at hext
      have h0 : name ++ [] = name ++ ext := by
        rw [List.append_nil]
        exact hext
      exact hne (List.append_cancel_left h0).symm
    · intro _ pre post hdecomp hpost
      exfalso
      have hdot := dot_mem_basename name pre post hdecomp (fun c hc => (hpost c hc).2)
      have hcontra := hnodot '.' hdot
      simp at hcontra
  case neg =>
    have hbsplit := rev_takeWhile_dot_split (pyBasename name) hA
    have hname : name = (name.take (name.length - (pyBasename name).length) ++
        (pyBasename name).take ((pyBasename name).length -
          ((pyBasename name).reverse.takeWhile (fun c => c != '.')).length - 1)) ++
        '.' :: ((pyBasename name).reverse.takeWhile (fun c => c != '.')).reverse := by
      have h5 := congrArg
        (fun l => name.take (name.length - (pyBasename name).length) ++ l) hbsplit
      simp only at h5
      rw [List.append_assoc]
      exact (pyBasename_split name).trans h5
    have hstem_noslash : ∀ c ∈ (pyBasename name).take ((pyBasename name).length -
        ((pyBasename name).reverse.takeWhile (fun c => c != '.')).length - 1),
        (c != '/') = true := by
      intro c hc
      exact pyBasename_no_slash name c (List.take_subset _ _ hc)
    have hext_chars : ∀ c ∈ ((pyBasename name).reverse.takeWhile (fun c => c != '.')).reverse,
        (c != '.') = true ∧ (c != '/') = true := by
      intro c hc
      have hc2 : c ∈ (pyBasename name).reverse.takeWhile (fun x => x != '.') :=
        List.mem_reverse.mp hc
      constructor
      · exact List.mem_takeWhile_imp (p := fun x => x != '.') hc2
      · exact pyBasename_no_slash name c (List.mem_reverse.mp (mem_of_mem_takeWhile hc2))
    by_cases hB : ((pyBasename name).take ((pyBasename name).length -
        ((pyBasename name).reverse.takeWhile (fun c => c != '.')).length - 1)).any
        (fun c => c != '.') = true
    case pos =>
      have hroot : pySplitextRoot name = name.take (name.length - (pyBasename name).length) ++
          (pyBasename name).take ((pyBasename name).length -
            ((pyBasename name).reverse.takeWhile (fun c => c != '.')).length - 1) := by
        simp only [pySplitextRoot]
        rw [if_neg hA, if_pos hB]
      have hname2 : name = pySplitextRoot name ++
          '.' :: ((pyBasename name).reverse.takeWhile (fun c => c != '.')).reverse := by
        rw [hroot]
        exact hname
      refine ⟨⟨_, hname2⟩, ?_, ?_⟩
      · intro ext hext hne
        have huniq : '.' :: ((pyBasename name).reverse.takeWhile (fun c => c != '.')).reverse =
            ext := List.append_cancel_left (hname2.symm.trans hext)
        refine ⟨_, huniq.symm, hext_chars, ?_⟩
        rw [hroot, pyBasename_append_no_slash _ _ hstem_noslash (pyBasename_dir_shape name)]
        exact hB
      · intro hcontra
        exfalso
        have hlen := congrArg List.length hname2
        rw [hcontra] at hlen
        simp only [List.length_append, List.length_cons] at hlen
        omega
    case neg =>
      have hroot : pySplitextRoot name = name := by
        simp only [pySplitextRoot]
        rw [if_neg hA, if_neg hB]
      refine ⟨⟨[], by rw [hroot, List.append_nil]⟩, ?_, ?_⟩
      · intro ext hext hne
        exfalso
        rw [hroot] at hext
        have h0 : name ++ [] = name ++ ext := by
          rw [List.append_nil]
          exact hext
        exact hne (List.append_cancel_left h0).symm
      · intro _ pre post hdecomp hpost
        obtain ⟨hpre, _⟩ := last_dot_split (hname.symm.trans hdecomp)
          (fun c hc => (hext_chars c hc).1) (fun c hc => (hpost c hc).1)
        rw [← hpre, pyBasename_append_no_slash _ _ hstem_noslash (pyBasename_dir_shape name)]
        exact Bool.eq_false_iff.mpr hB

/-- Witness for `C8_splitext_amended`: on `name.backup.csv` exactly the one
extension level `.csv` is removed, leaving `name.backup`. -/
theorem C8_splitext_amended_w :
    ∃ t, (".csv".data : PyStr) = '.' :: t ∧
      (∀ c ∈ t, (c != '.') = true ∧ (c != '/') = true) ∧
      (pyBasename (pySplitextRoot "name.backup.csv".data)).any (fun c => c != '.') = true :=
  (C8_splitext_amended "name.backup.csv".data).2.1 ".csv".data (by decide) (by decide)
